import Mathlib

/-!
Verification of the free/used block tracker of the `ralloc` repository
(`src/block_list.rs`), against its natural-language specification.

The Rust code is shallowly embedded.  Machine integers (`usize`) are
modelled by `Nat`:

* every subtraction that the source performs on `usize` values goes
  through `csub`, which returns `none` exactly when the subtraction
  would underflow — i.e. when a debug build of the source aborts;
* `none` throughout the embedding means "the operation panicked /
  aborted / hit undefined behaviour"; `some` means the operation ran to
  completion;
* raw-pointer accesses to the list's backing storage are modelled by a
  slot array `slots : List (Option BlockEntry)` whose length is the
  capacity; a slot holding `none` is uninitialised memory, and reading
  it, or touching memory outside the buffer, is modelled as a failure;
* slice indexing `self[i]` (which panics when `i ≥ len`) is modelled by
  `readIx`/`writeIx`, raw `ptr::write`/`ptr::copy` (bounded only by the
  buffer) by `writeS`/`memmove`;
* the mutually recursive operations (`alloc` calls `insert` calls
  `reserve` calls `realloc` calls `alloc` …) take a fuel parameter;
  exhausted fuel also yields `none`.

`Block`/`BlockEntry` helper operations (`end`, `left_to`, the
`Block → BlockEntry` conversion) and the segment interface
(`segment_end`/`inc_brk`) are not part of the given sources
(`block.rs` and the `sys` module are absent); they are modelled from
the specification where noted.
-/

namespace Ralloc

/-- A contiguous byte range: start address and length
(`Block { size, ptr }` of the source, with `Unique<u8>` modelled as a
`Nat` address). -/
structure Block where
  ptr : Nat
  size : Nat
deriving Repr, DecidableEq

/-- A block tagged with the `free` flag (`BlockEntry` of the source). -/
structure BlockEntry where
  ptr : Nat
  size : Nat
  free : Bool
deriving Repr, DecidableEq

/-- Modelled from the spec §4.1: `end()` is `address + size`. -/
def Block.endAddr (b : Block) : Nat := b.ptr + b.size

/-- Modelled from the spec §4.1: `end()` on an entry. -/
def BlockEntry.endAddr (e : BlockEntry) : Nat := e.ptr + e.size

/-- Modelled from the spec §4.1: `left_to(other)` is true iff
`self.end() == other.address`. -/
def BlockEntry.left_to (e : BlockEntry) (b : Block) : Bool :=
  e.endAddr == b.ptr

/-- Modelled from the spec §3: the `Block → BlockEntry` conversion used
at every `.into()` site; entries inserted for blocks are free ranges. -/
def Block.toEntry (b : Block) : BlockEntry := ⟨b.ptr, b.size, true⟩

/-- The state of `BlockList` plus the segment interface:
`ptr` is the address of the backing storage, `slots` the backing
storage itself (length = `cap`), `len` the number of entries the list
believes it has, `brk` the current end of the managed region
(modelled from the spec §6), and `ghostCopies` an instrumentation log
of the `ptr::copy` data moves performed by `realloc` (source, target,
byte count) — it influences nothing. -/
structure BlockList where
  ptr : Nat
  slots : List (Option BlockEntry)
  len : Nat
  brk : Nat
  ghostCopies : List (Nat × Nat × Nat)
deriving Repr, DecidableEq

/-- Checked `usize` subtraction: `none` is the debug-build abort on
underflow. -/
def csub (a b : Nat) : Option Nat :=
  if b ≤ a then some (a - b) else none

/-- `fn aligner(ptr, align) = align - ptr as usize % align`
(src/block_list.rs:16-18).  `align = 0` makes `%` panic. -/
def aligner (p align : Nat) : Option Nat :=
  if align = 0 then none else some (align - p % align)

/-- `fn canonicalize_brk(size)` (src/block_list.rs:20-26). -/
def canonicalize_brk (size : Nat) : Nat :=
  max 200 (size + min (1 * size) 500)

/-- `align_of::<BlockEntry>()`: the entry holds a pointer, so 8 on the
64-bit targets the allocator is written for. -/
def alignOfBlockEntry : Nat := 8

/-- Read a raw slot of the backing storage: `none` when the slot is
uninitialised or outside the buffer. -/
def readS (s : BlockList) (i : Nat) : Option BlockEntry :=
  (s.slots.getD i none)

/-- Slice indexing `self[i]` (`Deref` to `[BlockEntry]`, length `len`):
panics beyond `len`. -/
def readIx (s : BlockList) (i : Nat) : Option BlockEntry :=
  if i < s.len then readS s i else none

/-- Raw write into the backing storage (`ptr::write`): fails only
outside the buffer (heap corruption, treated as failure). -/
def writeS (s : BlockList) (i : Nat) (e : BlockEntry) : Option BlockList :=
  if i < s.slots.length then some { s with slots := s.slots.set i (some e) } else none

/-- Slice write `self[i] = e`: panics beyond `len`. -/
def writeIx (s : BlockList) (i : Nat) (e : BlockEntry) : Option BlockList :=
  if i < s.len then writeS s i e else none

/-- Read `count` consecutive slots starting at `src`. -/
def readSeq (s : BlockList) (src : Nat) : Nat → Option (List BlockEntry)
  | 0 => some []
  | c + 1 => do
    let v ← readS s src
    let vs ← readSeq s (src + 1) c
    pure (v :: vs)

/-- Write the values consecutively starting at `dst`. -/
def writeSeq : BlockList → Nat → List BlockEntry → Option BlockList
  | s, _, [] => some s
  | s, i, v :: vs => do
    let s1 ← writeS s i v
    writeSeq s1 (i + 1) vs

/-- `ptr::copy(src, dst, count)` on the entry buffer: memmove semantics,
all sources are read before any target is written. -/
def memmove (s : BlockList) (src dst count : Nat) : Option BlockList := do
  let vals ← readSeq s src count
  writeSeq s dst vals

/-- The visible entries `self[0..len]`. -/
def entriesOf (s : BlockList) : Option (List BlockEntry) :=
  readSeq s 0 s.len

/-- The sortedness chain of `check` (src/block_list.rs:248-253):
`prev` starts at the first entry's address and each following entry's
address must be strictly greater. -/
def sortedChainB (p : Nat) : List BlockEntry → Bool
  | [] => true
  | e :: r => decide (p < e.ptr) && sortedChainB e.ptr r

/-- `check`'s sortedness test over the visible entries. -/
def sortedB : List BlockEntry → Bool
  | [] => true
  | e :: r => sortedChainB e.ptr r

/-- The overlap chain of `check` (src/block_list.rs:254-259): `prev`
starts at the *address* of the first entry (not its end) and is then
advanced to each entry's end; every free entry must start strictly
above `prev`. -/
def overlapChainB (p : Nat) : List BlockEntry → Bool
  | [] => true
  | e :: r => (!e.free || decide (p < e.ptr)) && overlapChainB e.endAddr r

/-- `check`'s free-overlap test over the visible entries. -/
def overlapB : List BlockEntry → Bool
  | [] => true
  | e :: r => overlapChainB e.ptr r

/-- `fn check(&self)` in a debug build (src/block_list.rs:246-263):
reads `self[0]` unconditionally (panics on an empty list), asserts the
two chains and `len <= cap`.  `none` is the fatal abort. -/
def checkF (s : BlockList) : Option Unit := do
  let es ← entriesOf s
  match es with
  | [] => none
  | _ :: _ =>
    if sortedB es && overlapB es && decide (s.len ≤ s.slots.length) then
      some ()
    else
      none

/-- The per-entry arithmetic of `alloc`'s scan (src/block_list.rs:34-36):
the aligner for the entry's address and the checked difference
`i.size - aligner`. -/
def fitTest (align : Nat) (e : BlockEntry) : Option (Nat × Nat) := do
  let al ← aligner e.ptr align
  let d ← csub e.size al
  pure (al, d)

/-- Whether an entry passes `alloc`'s fit test `i.size - aligner >= size`
without aborting. -/
def FitsB (align size : Nat) (e : BlockEntry) : Bool :=
  match fitTest align e with
  | some (_, d) => decide (size ≤ d)
  | none => false

/-- The in-place mutation `alloc` applies to every entry that passes the
fit test (src/block_list.rs:43-48). -/
def mutateEntry (al : Nat) (e : BlockEntry) : BlockEntry :=
  if al = 0 then { e with free := false } else { e with size := al }

/-- The `for (n, i) in self.iter_mut().enumerate().rev()` scan of
`alloc` (src/block_list.rs:33-50), processing the entries of the list
given index `i₀` for the head.  Every entry is tested (the loop never
exits early and ignores the `free` flag); every passing entry is
mutated; `ins` ends on the passing entry of *lowest* index because the
iteration is reversed and later assignments in the loop are the lower
indices.  Returns the mutated entries and the final `ins`. -/
def scanFit (align size : Nat) : List BlockEntry → Nat → Option (List BlockEntry × Option (Nat × Block))
  | [], _ => some ([], none)
  | e :: rest, i => do
    let (rest', insR) ← scanFit align size rest (i + 1)
    let (al, d) ← fitTest align e
    if size ≤ d then
      pure (mutateEntry al e :: rest',
            some (i, ⟨e.ptr + al + size, d - size⟩))
    else
      pure (e :: rest', insR)

/-- Write the (mutated) visible entries back into the backing storage:
the in-place effect of `iter_mut`. -/
def writeBack (s : BlockList) (es : List BlockEntry) : BlockList :=
  { s with slots := es.map some ++ s.slots.drop s.len }

/-- `sys::inc_brk` — modelled from the spec §6: extends the managed
region, returning the previous end (the base of the new space). -/
def inc_brk (s : BlockList) (n : Nat) : Nat × BlockList :=
  (s.brk, { s with brk := s.brk + n })

/-- `binary_search_by` followed by `find`'s `Ok x | Err x → x`
(src/block_list.rs:83-85, 191-196), modelled from the documented
contract of `slice::binary_search_by` on a sorted slice: the index of
the entry with the block's address if present, otherwise the number of
entries below it.  Reads the visible entries. -/
def findF (s : BlockList) (b : Block) : Option Nat := do
  let es ← entriesOf s
  match es.findIdx? (fun e => e.ptr == b.ptr) with
  | some i => pure i
  | none => pure (es.countP (fun e => decide (e.ptr < b.ptr)))

/-- `fn realloc_inplace(&mut self, ind, old_size, size)`
(src/block_list.rs:122-146).  The outer `Option` is panic/abort; the
inner layer is the `Result`: `some none` is `Err(())`,
`some (some s')` is `Ok(())` with the updated state.

Note the source computes `additional = old_size - size` (old minus
*new*), which underflows whenever the block grows, and never looks at
`self[ind + 1].free`. -/
def reallocInplaceF (s : BlockList) (ind old_size size : Nat) : Option (Option BlockList) := do
  let lm1 ← csub s.len 1
  if ind = lm1 then
    pure none
  else do
    let additional ← csub old_size size
    let e1 ← readIx s (ind + 1)
    if size ≤ old_size + e1.size then do
      let ns ← csub e1.size additional
      let e1' : BlockEntry :=
        { ptr := e1.ptr + additional, size := ns,
          free := if ns = 0 then false else e1.free }
      let s' ← writeIx s (ind + 1) e1'
      let _ ← checkF s'
      pure (some s')
    else
      pure none

/-- The forward gap scan of `insert` (src/block_list.rs:219-223):
offset (counted from `ind`) of the first entry marked `free`. -/
def gapIdx (es : List BlockEntry) : Option Nat :=
  es.findIdx? (fun e => e.free)

/-- The memmove/write/len part of `insert` (src/block_list.rs:230-237):
the two slicings `self[ind..]` and `self[ind + 1..]` (which panic when
the start exceeds `len`), `ptr::copy` of `count` entries one slot to
the right, `self[ind] = block`, `len += 1`. -/
def insertShift (s : BlockList) (ind count : Nat) (b : BlockEntry) : Option BlockList := do
  if ind ≤ s.len ∧ ind + 1 ≤ s.len then do
    let s1 ← memmove s ind (ind + 1) count
    let s2 ← writeIx s1 ind b
    pure { s2 with len := s2.len + 1 }
  else
    none

/-- Resize the backing storage to `cap` slots, keeping contents.  The
byte-for-byte relocation done by the self-hosted `realloc` is abstracted
to content preservation. -/
def resizeSlots (s : BlockList) (cap : Nat) : BlockList :=
  { s with slots := s.slots.take cap ++ List.replicate (cap - s.slots.length) none }

mutual

/-- `pub fn alloc(&mut self, size, align)` (src/block_list.rs:29-69). -/
def allocF (fuel : Nat) (s : BlockList) (size align : Nat) : Option (Nat × BlockList) :=
  match fuel with
  | 0 => none
  | f + 1 => do
    let es ← entriesOf s
    let (es', ins) ← scanFit align size es 0
    let s1 := writeBack s es'
    match ins with
    | some (n, b) => do
      let res ← csub b.ptr size
      let s2 ← if b.size = 0 then pure s1 else insertF f s1 n b.toEntry
      let _ ← checkF s2
      pure (res, s2)
    | none => alloc_newF f s1 size align
termination_by structural fuel

/-- `fn alloc_new(&mut self, size, align)` (src/block_list.rs:87-120). -/
def alloc_newF (fuel : Nat) (s : BlockList) (size align : Nat) : Option (Nat × BlockList) :=
  match fuel with
  | 0 => none
  | f + 1 => do
    let can_size := canonicalize_brk size
    let seg_end := s.brk
    let al ← aligner seg_end align
    let (p, s1) := inc_brk s (can_size + al)
    let alignment_block : Block := ⟨p, al⟩
    let res : Block := ⟨alignment_block.endAddr, size⟩
    let s2 ← pushF f s1 alignment_block.toEntry
    let rem ← csub can_size size
    let s3 ← pushF f s2 (Block.mk res.endAddr rem).toEntry
    let _ ← checkF s3
    pure (res.ptr, s3)
termination_by structural fuel

/-- `fn push(&mut self, block)` (src/block_list.rs:71-81): writes one
slot past `last_mut()` (undefined on an empty list) and — faithfully —
never increments `len`. -/
def pushF (fuel : Nat) (s : BlockList) (b : BlockEntry) : Option BlockList :=
  match fuel with
  | 0 => none
  | f + 1 => do
    let len := s.len
    let s1 ← reserveF f s (len + 1)
    if s1.len = 0 then none
    else do
      let s2 ← writeS s1 s1.len b
      let _ ← checkF s2
      pure s2
termination_by structural fuel

/-- `fn reserve(&mut self, needed)` (src/block_list.rs:172-189):
reallocates the backing storage through the list's own `realloc`. -/
def reserveF (fuel : Nat) (s : BlockList) (needed : Nat) : Option BlockList :=
  match fuel with
  | 0 => none
  | f + 1 =>
    if s.slots.length < needed then do
      let (p, s1) ← reallocF f s ⟨s.ptr, s.slots.length⟩ (needed * 2) alignOfBlockEntry
      let s2 := resizeSlots { s1 with ptr := p } (needed * 2)
      let _ ← checkF s2
      pure s2
    else
      pure s
termination_by structural fuel

/-- `pub fn realloc(&mut self, block, new_size, align)`
(src/block_list.rs:148-170).  On relocation the source copies
`block.size` (the *old* size) bytes; the copy is logged in
`ghostCopies`. -/
def reallocF (fuel : Nat) (s : BlockList) (block : Block) (new_size align : Nat) : Option (Nat × BlockList) :=
  match fuel with
  | 0 => none
  | f + 1 => do
    let ind ← findF s block
    match reallocInplaceF s ind block.size new_size with
    | none => none
    | some (some s') => pure (block.ptr, s')
    | some none => do
      let (p, s1) ← allocF f s new_size align
      let s2 := { s1 with ghostCopies := s1.ghostCopies ++ [(block.ptr, p, block.size)] }
      let s3 ← freeF f s2 block
      let _ ← checkF s3
      pure (p, s3)
termination_by structural fuel

/-- `pub fn free(&mut self, block)` (src/block_list.rs:198-213). -/
def freeF (fuel : Nat) (s : BlockList) (block : Block) : Option BlockList :=
  match fuel with
  | 0 => none
  | f + 1 => do
    let ind ← findF s block
    let tryRight : Option BlockList := do
      let lm1 ← csub s.len 1
      if ind < lm1 then do
        let er ← readIx s ind
        if er.left_to block then
          writeIx s ind { er with size := er.size + block.size }
        else
          insertF f s ind block.toEntry
      else
        insertF f s ind block.toEntry
    let s1 ←
      if ind ≠ 0 then do
        let el ← readIx s (ind - 1)
        if el.left_to block then
          writeIx s (ind - 1) { el with size := el.size + block.size }
        else
          tryRight
      else
        tryRight
    let _ ← checkF s1
    pure s1
termination_by structural fuel

/-- `fn insert(&mut self, ind, block)` (src/block_list.rs:215-241).
The gap offset `n` of the found case is relative to `ind` (the
`enumerate` sits behind the `skip`), while the fallback returns the
absolute `ind`; the copied count is `self.len - n` either way. -/
def insertF (fuel : Nat) (s : BlockList) (ind : Nat) (b : BlockEntry) : Option BlockList :=
  match fuel with
  | 0 => none
  | f + 1 => do
    let len := s.len
    let es ← entriesOf s
    let (s0, n) ←
      match gapIdx (es.drop ind) with
      | some nrel => pure (s, nrel)
      | none => do
        let s0 ← reserveF f s (len + 1)
        pure (s0, ind)
    let count ← csub s0.len n
    let s1 ← insertShift s0 ind count b
    let _ ← checkF s1
    pure s1
termination_by structural fuel

end

/-- A clean `BlockList` state: the given visible entries, capacity
`cap` (the remaining slots uninitialised), break `brk`. -/
def stateOf (es : List BlockEntry) (cap brk : Nat) : BlockList :=
  { ptr := 2000, slots := es.map some ++ List.replicate (cap - es.length) none,
    len := es.length, brk := brk, ghostCopies := [] }

/-- `usize::MAX + 1` on the 64-bit targets. -/
def USIZE : Nat := 2 ^ 64

/-- Wrapping (release-build) `usize` subtraction `a - b`. -/
def wrapSub (a b : Nat) : Nat := (a + (USIZE - b % USIZE)) % USIZE

/-- The allocation policy in the words of the spec (§4.2/glossary):
"among all free entries large enough, the one with the smallest address
is chosen", its result address being the entry's address plus its
alignment padding.  Stated for comparison against `allocF`. -/
def leftmostFreeFitAddr (es : List BlockEntry) (align size : Nat) : Option Nat :=
  ((es.filter (fun e => e.free && FitsB align size e)).argmin (fun e => e.ptr)).bind
    (fun e => (aligner e.ptr align).map (fun al => e.ptr + al))

/-- The byte ranges `[x, x+m)` and `[y, y+n)` do not intersect. -/
def rdisj (x m y n : Nat) : Prop := x + m ≤ y ∨ y + n ≤ x

instance (x m y n : Nat) : Decidable (rdisj x m y n) := by
  unfold rdisj; infer_instance

/-- Uninitialised beyond the visible entries: no stale slot data. -/
def CleanSpare (s : BlockList) : Prop := ∀ i, s.len ≤ i → readS s i = none

/-!  ## Theorems  -/

/-!  ### Lemmas about the scan of `alloc`  -/

theorem fitTest_none_of_undersized {align al : Nat} {e : BlockEntry}
    (hal : aligner e.ptr align = some al) (hlt : e.size < al) :
    fitTest align e = none := by
  simp only [fitTest, hal, Option.bind_eq_bind, Option.some_bind, csub]
  simp [Nat.not_le.mpr hlt]

theorem scanFit_none_of_mem {align size : Nat} {es : List BlockEntry} {e : BlockEntry}
    (he : e ∈ es) (hf : fitTest align e = none) :
    ∀ i, scanFit align size es i = none := by
  induction es with
  | nil => cases he
  | cons x rest ih =>
    intro i
    rcases List.mem_cons.mp he with h | h
    · subst h
      cases hr : scanFit align size rest (i + 1) with
      | none => simp [scanFit, hr]
      | some r => simp [scanFit, hr, hf]
    · simp [scanFit, ih h (i + 1)]

theorem scanFit_nofit {align size : Nat} {es es' : List BlockEntry} :
    ∀ {i : Nat}, scanFit align size es i = some (es', none) →
      es' = es ∧ ∀ e ∈ es, FitsB align size e = false := by
  induction es generalizing es' with
  | nil =>
    intro i h
    simp only [scanFit, Option.some.injEq, Prod.mk.injEq] at h
    simp [h.1.symm]
  | cons x rest ih =>
    intro i h
    simp only [scanFit, Option.bind_eq_bind] at h
    cases hr : scanFit align size rest (i + 1) with
    | none => rw [hr] at h; cases h
    | some r =>
      obtain ⟨rest', insR⟩ := r
      rw [hr] at h
      cases hf : fitTest align x with
      | none => simp [hf] at h
      | some ald =>
        obtain ⟨al, d⟩ := ald
        rw [hf] at h
        by_cases hsd : size ≤ d
        · simp [hsd] at h
        · simp only [Option.some_bind, if_neg hsd, pure, Option.some.injEq,
            Prod.mk.injEq] at h
          obtain ⟨hes, hins⟩ := h
          subst hins
          obtain ⟨hrest, hall⟩ := ih hr
          subst hrest
          refine ⟨hes.symm, ?_⟩
          intro e he
          rcases List.mem_cons.mp he with rfl | hmem
          · simp [FitsB, hf, hsd]
          · exact hall e hmem

theorem scanFit_winner {align size : Nat} {es es' : List BlockEntry} {n : Nat} {b : Block} :
    ∀ {i : Nat}, scanFit align size es i = some (es', some (n, b)) →
      ∃ k e al d, es.get? k = some e ∧ n = i + k ∧
        fitTest align e = some (al, d) ∧ size ≤ d ∧
        b.ptr = e.ptr + al + size ∧ b.size = d - size ∧
        es'.get? k = some (mutateEntry al e) ∧
        ∀ j e', j < k → es.get? j = some e' → FitsB align size e' = false := by
  induction es generalizing es' n b with
  | nil => intro i h; simp [scanFit] at h
  | cons x rest ih =>
    intro i h
    simp only [scanFit, Option.bind_eq_bind] at h
    cases hr : scanFit align size rest (i + 1) with
    | none => rw [hr] at h; cases h
    | some r =>
      obtain ⟨rest', insR⟩ := r
      rw [hr] at h
      cases hf : fitTest align x with
      | none => simp [hf] at h
      | some ald =>
        obtain ⟨al, d⟩ := ald
        rw [hf] at h
        by_cases hsd : size ≤ d
        · simp only [Option.some_bind, if_pos hsd, pure, Option.some.injEq,
            Prod.mk.injEq] at h
          obtain ⟨hes, hn, hb⟩ := h
          subst hn
          refine ⟨0, x, al, d, rfl, by omega, hf, hsd, ?_, ?_, ?_, ?_⟩
          · rw [← hb]
          · rw [← hb]
          · rw [← hes]; rfl
          · intro j e' hj _; omega
        · simp only [Option.some_bind, if_neg hsd, pure, Option.some.injEq,
            Prod.mk.injEq] at h
          obtain ⟨hes, hins⟩ := h
          subst hins
          obtain ⟨k, e, al', d', hget, hn, hft, hsd', hbp, hbs, hget', hleft⟩ := ih hr
          refine ⟨k + 1, e, al', d', by simpa using hget, by omega, hft, hsd',
            hbp, hbs, ?_, ?_⟩
          · rw [← hes]; simpa using hget'
          · intro j e' hj hj'
            cases j with
            | zero =>
              have hx : x = e' := by simpa using hj'
              subst hx
              simp [FitsB, hf, hsd]
            | succ j' =>
              exact hleft j' e' (by omega) (by simpa using hj')

/-!  ### Lemmas about the slot buffer  -/

theorem readS_get? {s : BlockList} {i : Nat} :
    readS s i = (s.slots.get? i).getD none := by
  simp [readS, List.getD_eq_getD_get?]

theorem readS_some_get? {s : BlockList} {i : Nat} {e : BlockEntry}
    (h : readS s i = some e) : s.slots.get? i = some (some e) := by
  rw [readS_get?] at h
  cases hg : s.slots.get? i with
  | none => rw [hg] at h; cases h
  | some o => rw [hg] at h; simp at h; rw [h]

theorem readSeq_length {s : BlockList} {src c : Nat} {vs : List BlockEntry} :
    readSeq s src c = some vs → vs.length = c := by
  induction c generalizing src vs with
  | zero => intro h; simp [readSeq] at h; simp [h.symm]
  | succ c' ih =>
    intro h
    simp only [readSeq, Option.bind_eq_bind] at h
    cases hv : readS s src with
    | none => rw [hv] at h; cases h
    | some v =>
      rw [hv] at h
      cases hs : readSeq s (src + 1) c' with
      | none => rw [hs] at h; cases h
      | some vs' =>
        rw [hs] at h
        simp only [Option.some_bind, pure, Option.some.injEq] at h
        rw [← h]
        simp [ih hs]

theorem readSeq_get {s : BlockList} {src c : Nat} {vs : List BlockEntry} :
    readSeq s src c = some vs →
      ∀ {k : Nat} {x : BlockEntry}, vs.get? k = some x → readS s (src + k) = some x := by
  induction c generalizing src vs with
  | zero => intro h k x hk; simp [readSeq] at h; subst h; simp at hk
  | succ c' ih =>
    intro h k x hk
    simp only [readSeq, Option.bind_eq_bind] at h
    cases hv : readS s src with
    | none => rw [hv] at h; cases h
    | some v =>
      rw [hv] at h
      cases hs : readSeq s (src + 1) c' with
      | none => rw [hs] at h; cases h
      | some vs' =>
        rw [hs] at h
        simp only [Option.some_bind, pure, Option.some.injEq] at h
        rw [← h] at hk
        cases k with
        | zero =>
          have hvx : v = x := by simpa using hk
          simpa [hvx] using hv
        | succ k' =>
          have := ih hs (by simpa using hk)
          simpa [Nat.add_assoc, Nat.add_comm 1 k'] using this

theorem readSeq_mem {s : BlockList} {src c : Nat} {vs : List BlockEntry}
    (h : readSeq s src c = some vs) :
    ∀ v ∈ vs, ∃ j, readS s j = some v := by
  intro v hv
  obtain ⟨k, hk⟩ := List.get?_of_mem hv
  exact ⟨src + k, readSeq_get h hk⟩

theorem readSeq_full {s : BlockList} :
    ∀ (es : List BlockEntry) (src : Nat),
      (∀ k, k < es.length → readS s (src + k) = es.get? k) →
      readSeq s src es.length = some es := by
  intro es
  induction es with
  | nil => intro src _; simp [readSeq]
  | cons x rest ih =>
    intro src hp
    have h0 : readS s src = some x := by simpa using hp 0 (by simp)
    have hr : readSeq s (src + 1) rest.length = some rest := by
      apply ih
      intro k hk
      have := hp (k + 1) (by simpa using Nat.succ_lt_succ hk)
      simpa [Nat.add_assoc, Nat.add_comm 1 k] using this
    simp [readSeq, h0, hr]

theorem readSeq_congr {s s' : BlockList} {src c : Nat}
    (h : ∀ k, k < c → readS s' (src + k) = readS s (src + k)) :
    readSeq s' src c = readSeq s src c := by
  induction c generalizing src with
  | zero => simp [readSeq]
  | succ c' ih =>
    have h0 : readS s' src = readS s src := by simpa using h 0 (Nat.succ_pos c')
    have hr : readSeq s' (src + 1) c' = readSeq s (src + 1) c' := by
      apply ih
      intro k hk
      have := h (k + 1) (Nat.succ_lt_succ hk)
      simpa [Nat.add_assoc, Nat.add_comm 1 k] using this
    simp [readSeq, h0, hr]

theorem entriesOf_length {s : BlockList} {es : List BlockEntry}
    (h : entriesOf s = some es) : es.length = s.len :=
  readSeq_length h

theorem entriesOf_get {s : BlockList} {es : List BlockEntry}
    (h : entriesOf s = some es) {k : Nat} {x : BlockEntry}
    (hk : es.get? k = some x) : readS s k = some x := by
  simpa using readSeq_get h hk

theorem readS_writeBack_lt {s : BlockList} {es : List BlockEntry} {i : Nat}
    (hlen : es.length = s.len) (hi : i < s.len) :
    readS (writeBack s es) i = es.get? i := by
  have hi' : i < (es.map some).length := by simpa [hlen]
  simp only [writeBack, readS, List.getD_eq_getD_get?]
  rw [List.get?_append hi', List.get?_map]
  cases hq : es.get? i <;> simp [hq]

theorem readS_writeBack_ge {s : BlockList} {es : List BlockEntry} {i : Nat}
    (hlen : es.length = s.len) (hi : s.len ≤ i) (hcap : s.len ≤ s.slots.length) :
    readS (writeBack s es) i = readS s i := by
  simp only [writeBack, readS, List.getD_eq_getD_get?]
  rw [List.get?_append_right (by simpa [hlen])]
  simp only [List.length_map, hlen]
  rw [List.get?_drop]
  have hsum : s.len + (i - s.len) = i := by omega
  rw [hsum]

theorem writeBack_len {s : BlockList} {es : List BlockEntry} :
    (writeBack s es).len = s.len := rfl

theorem writeBack_brk {s : BlockList} {es : List BlockEntry} :
    (writeBack s es).brk = s.brk := rfl

theorem writeBack_slots_length {s : BlockList} {es : List BlockEntry}
    (hlen : es.length = s.len) (hcap : s.len ≤ s.slots.length) :
    (writeBack s es).slots.length = s.slots.length := by
  simp [writeBack, hlen]
  omega

theorem entriesOf_writeBack {s : BlockList} {es : List BlockEntry}
    (hlen : es.length = s.len) :
    entriesOf (writeBack s es) = some es := by
  have h : readSeq (writeBack s es) 0 es.length = some es := by
    apply readSeq_full
    intro k hk
    simpa using readS_writeBack_lt hlen (by omega)
  simpa [entriesOf, writeBack, hlen] using h

theorem cleanSpare_writeBack {s : BlockList} {es : List BlockEntry}
    (hlen : es.length = s.len) (hcap : s.len ≤ s.slots.length)
    (hcs : CleanSpare s) : CleanSpare (writeBack s es) := by
  intro i hi
  rw [writeBack_len] at hi
  rw [readS_writeBack_ge hlen hi hcap]
  exact hcs i hi

theorem writeBack_self {s : BlockList} {es : List BlockEntry}
    (hes : entriesOf s = some es) (hcap : s.len ≤ s.slots.length) :
    writeBack s es = s := by
  have hlen : es.length = s.len := entriesOf_length hes
  have htake : s.slots.take s.len = es.map some := by
    apply List.ext_get?
    intro i
    by_cases hi : i < s.len
    · rw [List.get?_take hi]
      have : es.get? i = some (es.get ⟨i, by omega⟩) :=
        List.get?_eq_get (by omega)
      have hr : readS s i = some (es.get ⟨i, by omega⟩) := entriesOf_get hes this
      rw [readS_some_get? hr, List.get?_map, this]
      rfl
    · rw [List.get?_eq_none.mpr, List.get?_eq_none.mpr]
      · simpa [hlen] using Nat.le_of_not_lt hi
      · simp only [List.length_take]
        omega
  show { s with slots := es.map some ++ s.slots.drop s.len } = s
  rw [← htake, List.take_append_drop]

theorem writeS_some {s : BlockList} {i : Nat} {e : BlockEntry} {s' : BlockList}
    (h : writeS s i e = some s') :
    s' = { s with slots := s.slots.set i (some e) } ∧ i < s.slots.length := by
  simp only [writeS] at h
  split at h
  · cases h; exact ⟨rfl, by assumption⟩
  · cases h

theorem readS_set {s : BlockList} {i j : Nat} {e : BlockEntry} :
    readS { s with slots := s.slots.set i (some e) } j
      = if i = j ∧ i < s.slots.length then some e else readS s j := by
  by_cases hij : i = j ∧ i < s.slots.length
  · obtain ⟨rfl, hi⟩ := hij
    simp [readS, List.getD_eq_getD_get?, List.get?_set_eq, hi,
      List.get?_eq_get hi]
  · rw [if_neg hij]
    by_cases hj : i = j
    · subst hj
      have hge : s.slots.length ≤ i := by
        rcases Nat.lt_or_ge i s.slots.length with h | h
        · exact absurd ⟨rfl, h⟩ hij
        · exact h
      rw [List.set_eq_of_length_le hge]
    · simp only [readS, List.getD_eq_getD_get?]
      rw [List.get?_set_ne _ _ hj]

theorem writeSeq_mem {vs : List BlockEntry} :
    ∀ {s s' : BlockList} {i : Nat}, writeSeq s i vs = some s' →
      ∀ j e, readS s' j = some e → e ∈ vs ∨ readS s j = some e := by
  induction vs with
  | nil =>
    intro s s' i h j e hj
    simp only [writeSeq, Option.some.injEq] at h
    subst h
    exact Or.inr hj
  | cons v rest ih =>
    intro s s' i h j e hj
    simp only [writeSeq, Option.bind_eq_bind] at h
    cases hw : writeS s i v with
    | none => rw [hw] at h; cases h
    | some s1 =>
      rw [hw] at h
      simp only [Option.some_bind] at h
      rcases ih h j e hj with hm | hr
      · exact Or.inl (List.mem_cons_of_mem v hm)
      · obtain ⟨hs1, hi⟩ := writeS_some hw
        subst hs1
        rw [readS_set] at hr
        split at hr
        · cases hr; exact Or.inl (List.mem_cons_self v rest)
        · exact Or.inr hr

theorem writeSeq_len {vs : List BlockEntry} :
    ∀ {s s' : BlockList} {i : Nat}, writeSeq s i vs = some s' →
      s'.len = s.len ∧ s'.brk = s.brk ∧ s'.slots.length = s.slots.length := by
  induction vs with
  | nil =>
    intro s s' i h
    simp only [writeSeq, Option.some.injEq] at h
    subst h
    exact ⟨rfl, rfl, rfl⟩
  | cons v rest ih =>
    intro s s' i h
    simp only [writeSeq, Option.bind_eq_bind] at h
    cases hw : writeS s i v with
    | none => rw [hw] at h; cases h
    | some s1 =>
      rw [hw] at h
      simp only [Option.some_bind] at h
      obtain ⟨h1, h2, h3⟩ := ih h
      obtain ⟨hs1, -⟩ := writeS_some hw
      subst hs1
      refine ⟨h1, h2, ?_⟩
      rw [h3]
      simp

theorem fitTest_some {align : Nat} {e : BlockEntry} {al d : Nat}
    (h : fitTest align e = some (al, d)) :
    aligner e.ptr align = some al ∧ csub e.size al = some d := by
  simp only [fitTest, Option.bind_eq_bind] at h
  cases ha : aligner e.ptr align with
  | none => rw [ha] at h; cases h
  | some al' =>
    rw [ha] at h
    cases hc : csub e.size al' with
    | none => simp [hc] at h
    | some d' =>
      simp only [hc, Option.some_bind, pure, Option.some.injEq, Prod.mk.injEq] at h
      obtain ⟨h1, h2⟩ := h
      subst h1; subst h2
      exact ⟨rfl, hc⟩

theorem aligner_some {p align al : Nat} (h : aligner p align = some al) :
    align ≠ 0 ∧ al = align - p % align := by
  simp only [aligner] at h
  split at h
  · cases h
  · cases h; exact ⟨by assumption, rfl⟩

theorem csub_some {a b c : Nat} (h : csub a b = some c) : b ≤ a ∧ c = a - b := by
  simp only [csub] at h
  split at h
  · cases h; exact ⟨by assumption, rfl⟩
  · cases h

theorem sortedChainB_lt {p : Nat} {es : List BlockEntry} (h : sortedChainB p es = true) :
    ∀ {j : Nat} {x : BlockEntry}, es.get? j = some x → p < x.ptr := by
  induction es generalizing p with
  | nil => intro j x hx; simp at hx
  | cons y rest ih =>
    simp only [sortedChainB, Bool.and_eq_true, decide_eq_true_eq] at h
    intro j x hx
    cases j with
    | zero =>
      have hy : y = x := by simpa using hx
      exact hy ▸ h.1
    | succ j' =>
      exact Nat.lt_trans h.1 (ih h.2 (by simpa using hx))

theorem sortedB_of_chain {p : Nat} {es : List BlockEntry}
    (h : sortedChainB p es = true) : sortedB es = true := by
  cases es with
  | nil => rfl
  | cons y rest =>
    simp only [sortedChainB, Bool.and_eq_true] at h
    exact h.2

theorem sortedB_get_lt {es : List BlockEntry} (h : sortedB es = true) :
    ∀ {j k : Nat} {x y : BlockEntry}, j < k →
      es.get? j = some x → es.get? k = some y → x.ptr < y.ptr := by
  induction es with
  | nil => intro j k x y _ hx _; simp at hx
  | cons e rest ih =>
    intro j k x y hjk hx hy
    simp only [sortedB] at h
    cases j with
    | zero =>
      have hex : e = x := by simpa using hx
      cases k with
      | zero => omega
      | succ k' =>
        exact hex ▸ sortedChainB_lt h (by simpa using hy)
    | succ j' =>
      cases k with
      | zero => omega
      | succ k' =>
        have hx' : rest.get? j' = some x := by simpa using hx
        have hy' : rest.get? k' = some y := by simpa using hy
        exact ih (sortedB_of_chain h) (by omega) hx' hy'

theorem aligner_pos {p align al : Nat} (h0 : 0 < align)
    (h : aligner p align = some al) : 0 < al := by
  obtain ⟨-, hv⟩ := aligner_some h
  have := Nat.mod_lt p h0
  omega

theorem add_aligner_mod {p align : Nat} (h : 0 < align) :
    (p + (align - p % align)) % align = 0 := by
  have h2 : p % align < align := Nat.mod_lt p h
  have h3 : align * (p / align) + p % align = p := Nat.div_add_mod p align
  have h1 : p + (align - p % align) = align * (p / align + 1) := by
    rw [Nat.mul_add, Nat.mul_one]
    omega
  rw [h1, Nat.mul_mod_right]

theorem rdisj_symm {x m y n : Nat} (h : rdisj x m y n) : rdisj y n x m := by
  unfold rdisj at h ⊢
  omega

theorem rdisj_sub {x m y n x' m' y' n' : Nat} (h : rdisj x m y n)
    (hx : x ≤ x') (hm : x' + m' ≤ x + m) (hy : y ≤ y') (hn : y' + n' ≤ y + n) :
    rdisj x' m' y' n' := by
  unfold rdisj at h ⊢
  omega

theorem pairwise_get? {R : BlockEntry → BlockEntry → Prop} {es : List BlockEntry}
    (h : es.Pairwise R) :
    ∀ {j k : Nat} {x y : BlockEntry}, j < k →
      es.get? j = some x → es.get? k = some y → R x y := by
  induction es with
  | nil => intro j k x y _ hx _; simp at hx
  | cons e rest ih =>
    intro j k x y hjk hx hy
    rw [List.pairwise_cons] at h
    cases j with
    | zero =>
      have hex : e = x := by simpa using hx
      cases k with
      | zero => omega
      | succ k' =>
        have hy' : rest.get? k' = some y := by simpa using hy
        exact hex ▸ h.1 y (List.get?_mem hy')
    | succ j' =>
      cases k with
      | zero => omega
      | succ k' =>
        have hx' : rest.get? j' = some x := by simpa using hx
        have hy' : rest.get? k' = some y := by simpa using hy
        exact ih h.2 (by omega) hx' hy'

theorem scanFit_entries {align size : Nat} {es es' : List BlockEntry}
    {r : Option (Nat × Block)} :
    ∀ {i : Nat}, scanFit align size es i = some (es', r) →
      es'.length = es.length ∧
      ∀ k e', es'.get? k = some e' →
        ∃ e, es.get? k = some e ∧ e'.ptr = e.ptr ∧ e'.size ≤ e.size := by
  induction es generalizing es' r with
  | nil =>
    intro i h
    simp only [scanFit, Option.some.injEq, Prod.mk.injEq] at h
    obtain ⟨h1, -⟩ := h
    subst h1
    exact ⟨rfl, by intro k e' hk; simp at hk⟩
  | cons x rest ih =>
    intro i h
    simp only [scanFit, Option.bind_eq_bind] at h
    cases hr : scanFit align size rest (i + 1) with
    | none => rw [hr] at h; cases h
    | some rr =>
      obtain ⟨rest', insR⟩ := rr
      rw [hr] at h
      cases hf : fitTest align x with
      | none => simp [hf] at h
      | some ald =>
        obtain ⟨al, d⟩ := ald
        rw [hf] at h
        obtain ⟨-, hcs⟩ := fitTest_some hf
        obtain ⟨hle, -⟩ := csub_some hcs
        obtain ⟨hlen, hpt⟩ := ih hr
        by_cases hsd : size ≤ d
        · simp only [Option.some_bind, if_pos hsd, pure, Option.some.injEq,
            Prod.mk.injEq] at h
          obtain ⟨hes, -⟩ := h
          subst hes
          refine ⟨by simpa using hlen, ?_⟩
          intro k e' hk
          cases k with
          | zero =>
            have hme : mutateEntry al x = e' := by simpa using hk
            subst hme
            refine ⟨x, rfl, ?_, ?_⟩
            · simp only [mutateEntry]
              split <;> rfl
            · simp only [mutateEntry]
              split
              · exact Nat.le_refl _
              · exact hle
          | succ k' =>
            obtain ⟨e, he, h1, h2⟩ := hpt k' e' (by simpa using hk)
            exact ⟨e, by simpa using he, h1, h2⟩
        · simp only [Option.some_bind, if_neg hsd, pure, Option.some.injEq,
            Prod.mk.injEq] at h
          obtain ⟨hes, -⟩ := h
          subst hes
          refine ⟨by simpa using hlen, ?_⟩
          intro k e' hk
          cases k with
          | zero =>
            have hme : x = e' := by simpa using hk
            subst hme
            exact ⟨x, rfl, rfl, Nat.le_refl _⟩
          | succ k' =>
            obtain ⟨e, he, h1, h2⟩ := hpt k' e' (by simpa using hk)
            exact ⟨e, by simpa using he, h1, h2⟩

theorem checkF_entries {s : BlockList} (h : checkF s = some ()) :
    ∃ es, entriesOf s = some es := by
  simp only [checkF, Option.bind_eq_bind] at h
  cases he : entriesOf s with
  | none => rw [he] at h; cases h
  | some es => exact ⟨es, rfl⟩

theorem reserveF_noop {f : Nat} {s s' : BlockList} {needed : Nat}
    (h : reserveF f s needed = some s') (hcap : needed ≤ s.slots.length) :
    s' = s := by
  cases f with
  | zero => simp [reserveF] at h
  | succ f' =>
    simp only [reserveF] at h
    rw [if_neg (by omega)] at h
    simpa [pure] using h.symm

theorem writeIx_some {s : BlockList} {i : Nat} {e : BlockEntry} {s' : BlockList}
    (h : writeIx s i e = some s') :
    s' = { s with slots := s.slots.set i (some e) } ∧ i < s.len := by
  simp only [writeIx] at h
  split at h
  · exact ⟨(writeS_some h).1, by assumption⟩
  · cases h

theorem memmove_mem {s s' : BlockList} {src dst count : Nat}
    (h : memmove s src dst count = some s') :
    (∀ j e, readS s' j = some e → (∃ j', readS s j' = some e)) ∧
    s'.len = s.len ∧ s'.brk = s.brk ∧ s'.slots.length = s.slots.length := by
  simp only [memmove, Option.bind_eq_bind] at h
  cases hv : readSeq s src count with
  | none => rw [hv] at h; cases h
  | some vals =>
    rw [hv] at h
    simp only [Option.some_bind] at h
    refine ⟨?_, writeSeq_len h⟩
    intro j e hj
    rcases writeSeq_mem h j e hj with hm | hr
    · exact readSeq_mem hv e hm
    · exact ⟨j, hr⟩

theorem insertShift_mem {s s' : BlockList} {ind count : Nat} {b : BlockEntry}
    (h : insertShift s ind count b = some s') :
    (∀ j e, readS s' j = some e → e = b ∨ ∃ j', readS s j' = some e) ∧
    s'.len = s.len + 1 ∧ s'.brk = s.brk ∧ s'.slots.length = s.slots.length := by
  simp only [insertShift, Option.bind_eq_bind] at h
  split at h
  · cases hm : memmove s ind (ind + 1) count with
    | none => rw [hm] at h; cases h
    | some sm =>
      rw [hm] at h
      simp only [Option.some_bind] at h
      cases hw : writeIx sm ind b with
      | none => rw [hw] at h; cases h
      | some sw =>
        rw [hw] at h
        simp only [Option.some_bind, pure, Option.some.injEq] at h
        obtain ⟨hmm, hml, hmb, hms⟩ := memmove_mem hm
        obtain ⟨hsw, hwi⟩ := writeIx_some hw
        subst hsw
        constructor
        · intro j e hj
          rw [← h] at hj
          have hj' : readS { sm with slots := sm.slots.set ind (some b) } j
              = some e := hj
          rw [readS_set] at hj'
          split at hj'
          · cases hj'; exact Or.inl rfl
          · rcases hmm j e hj' with ⟨j', hjr⟩
            exact Or.inr ⟨j', hjr⟩
        · rw [← h]
          simp only []
          refine ⟨by simp [hml], by simp [hmb], by simp [hms]⟩
  · cases h

theorem insertF_mem {f : Nat} {s s' : BlockList} {ind : Nat} {b : BlockEntry}
    (hcap : s.len + 1 ≤ s.slots.length)
    (h : insertF f s ind b = some s') :
    (∀ j e, readS s' j = some e → e = b ∨ ∃ j', readS s j' = some e) ∧
    s'.len = s.len + 1 ∧ s'.brk = s.brk ∧ s'.slots.length = s.slots.length := by
  cases f with
  | zero => simp [insertF] at h
  | succ f' =>
    simp only [insertF, Option.bind_eq_bind] at h
    cases he : entriesOf s with
    | none => rw [he] at h; cases h
    | some es =>
      rw [he] at h
      simp only [Option.some_bind] at h
      have main : ∀ {s0 : BlockList} {n : Nat}, s0 = s →
          ((csub s0.len n).bind fun count =>
            (insertShift s0 ind count b).bind fun s1 =>
              (checkF s1).bind fun _ => pure s1) = some s' →
          (∀ j e, readS s' j = some e → e = b ∨ ∃ j', readS s j' = some e) ∧
          s'.len = s.len + 1 ∧ s'.brk = s.brk ∧
          s'.slots.length = s.slots.length := by
        intro s0 n hs0 hrest
        subst hs0
        cases hc : csub s0.len n with
        | none => rw [hc] at hrest; cases hrest
        | some count =>
          rw [hc] at hrest
          simp only [Option.some_bind] at hrest
          cases hi : insertShift s0 ind count b with
          | none => rw [hi] at hrest; cases hrest
          | some s1 =>
            rw [hi] at hrest
            simp only [Option.some_bind] at hrest
            cases hchk : checkF s1 with
            | none => rw [hchk] at hrest; cases hrest
            | some u =>
              rw [hchk] at hrest
              simp only [Option.some_bind, pure, Option.some.injEq] at hrest
              subst hrest
              exact insertShift_mem hi
      cases hg : gapIdx (es.drop ind) with
      | some nrel =>
        rw [hg] at h
        simp only [pure, Option.some_bind] at h
        exact main rfl h
      | none =>
        rw [hg] at h
        simp only [Option.bind_eq_bind, Option.some_bind] at h
        cases hres : reserveF f' s (s.len + 1) with
        | none => rw [hres] at h; cases h
        | some s0 =>
          rw [hres] at h
          simp only [Option.some_bind, pure] at h
          exact main (reserveF_noop hres hcap) h

theorem pushF_entries {f : Nat} {s s' : BlockList} {b : BlockEntry}
    (hcap : s.len + 1 ≤ s.slots.length)
    (h : pushF f s b = some s') :
    s'.len = s.len ∧ s'.brk = s.brk ∧ s'.slots.length = s.slots.length ∧
    entriesOf s' = entriesOf s := by
  cases f with
  | zero => simp [pushF] at h
  | succ f' =>
    simp only [pushF, Option.bind_eq_bind] at h
    cases hres : reserveF f' s (s.len + 1) with
    | none => rw [hres] at h; cases h
    | some s1 =>
      rw [hres] at h
      have hs1 : s1 = s := reserveF_noop hres hcap
      subst hs1
      simp only [Option.some_bind] at h
      split at h
      · cases h
      · cases hw : writeS s1 s1.len b with
        | none => rw [hw] at h; cases h
        | some s2 =>
          rw [hw] at h
          simp only [Option.some_bind] at h
          cases hchk : checkF s2 with
          | none => rw [hchk] at h; cases h
          | some u =>
            rw [hchk] at h
            simp only [Option.some_bind, pure, Option.some.injEq] at h
            subst h
            obtain ⟨hs2, -⟩ := writeS_some hw
            subst hs2
            refine ⟨rfl, rfl, by simp, ?_⟩
            have hcongr : ∀ k, k < s1.len →
                readS { s1 with slots := s1.slots.set s1.len (some b) } (0 + k)
                  = readS s1 (0 + k) := by
              intro k hk
              rw [readS_set]
              rw [if_neg]
              intro hcon
              omega
            exact readSeq_congr hcongr

/-- **C10** (confirmed).  `alloc`'s fit test is not total: if the list
holds an entry whose size is below the alignment padding computed for
its address, the scan's unsigned subtraction `i.size - aligner`
underflows, so `alloc` aborts for *any* fuel in a debug build; in a
release build the wrapped difference is at least `size`, so the
undersized entry spuriously passes the fit test. -/
theorem alloc_fit_underflow (s : BlockList) (es : List BlockEntry) (e : BlockEntry)
    (fuel size align al : Nat)
    (hes : entriesOf s = some es) (he : e ∈ es)
    (hal : aligner e.ptr align = some al) (hlt : e.size < al)
    (halign : align < USIZE) (hsz : size + al ≤ e.size + USIZE) :
    allocF fuel s size align = none ∧ size ≤ wrapSub e.size al := by
  constructor
  · cases fuel with
    | zero => simp [allocF]
    | succ f =>
      have hscan : scanFit align size es 0 = none :=
        scanFit_none_of_mem he (fitTest_none_of_undersized hal hlt) 0
      simp [allocF, hes, hscan]
  · have hal2 : al ≤ align := by
      simp only [aligner] at hal
      split at hal
      · cases hal
      · cases hal; omega
    have h1 : al % USIZE = al := Nat.mod_eq_of_lt (lt_of_le_of_lt hal2 halign)
    have h2 : e.size + (USIZE - al) < USIZE := by omega
    simp only [wrapSub, h1]
    rw [Nat.mod_eq_of_lt h2]
    omega

/-- **C10** witness: the one-byte free entry at the aligned address 4
makes `alloc(2, 4)` abort (its padding is 4 > 1), and the wrapped
difference passes the release fit test. -/
theorem alloc_fit_underflow_witness :
    allocF 10 (stateOf [⟨4, 1, true⟩] 2 100) 2 4 = none ∧ 2 ≤ wrapSub 1 4 :=
  ⟨(alloc_fit_underflow (stateOf [⟨4, 1, true⟩] 2 100) [⟨4, 1, true⟩] ⟨4, 1, true⟩ 10 2 4 4
      (by decide) (by decide) (by decide) (by decide) (by decide) (by decide)).1,
   (alloc_fit_underflow (stateOf [⟨4, 1, true⟩] 2 100) [⟨4, 1, true⟩] ⟨4, 1, true⟩ 10 2 4 4
      (by decide) (by decide) (by decide) (by decide) (by decide) (by decide)).2⟩

/-- **C1** (confirmed).  A successful `alloc(size, align)` on a valid
state — pairwise-disjoint entries below the break, clean spare slots,
one slot of slack in the backing storage — returns an `align`-aligned
address whose range `[a, a+size)` intersects neither any still-live
prior allocation (any list `L` of ranges disjoint from the recorded
entries and below the break) nor any range recorded in the list after
the call. -/
theorem alloc_valid (fuel : Nat) (s : BlockList) (size align a : Nat) (s' : BlockList)
    (es : List BlockEntry) (L : List Block)
    (hes : entriesOf s = some es)
    (halign : 0 < align)
    (hdisj : es.Pairwise (fun e1 e2 => rdisj e1.ptr e1.size e2.ptr e2.size))
    (hbrk : ∀ e ∈ es, e.ptr + e.size ≤ s.brk)
    (hclean : CleanSpare s)
    (hcap : s.len + 1 ≤ s.slots.length)
    (hL : ∀ l ∈ L, l.ptr + l.size ≤ s.brk ∧
      ∀ e ∈ es, rdisj l.ptr l.size e.ptr e.size)
    (hsucc : allocF fuel s size align = some (a, s')) :
    a % align = 0 ∧
    (∀ l ∈ L, rdisj a size l.ptr l.size) ∧
    (∃ es', entriesOf s' = some es' ∧ ∀ e ∈ es', rdisj a size e.ptr e.size) := by
  have hcap' : s.len ≤ s.slots.length := by omega
  have hlen : es.length = s.len := entriesOf_length hes
  cases fuel with
  | zero => simp [allocF] at hsucc
  | succ f =>
    simp only [allocF, hes, Option.bind_eq_bind, Option.some_bind] at hsucc
    cases hscan : scanFit align size es 0 with
    | none => rw [hscan] at hsucc; cases hsucc
    | some r =>
      obtain ⟨es2, ins⟩ := r
      rw [hscan] at hsucc
      obtain ⟨hlen2, hpt⟩ := scanFit_entries hscan
      cases ins with
      | some nb =>
        obtain ⟨n, b⟩ := nb
        obtain ⟨k, e, al, d, hget, hn, hft, hsd, hbp, hbs, hget', hleft⟩ :=
          scanFit_winner hscan
        obtain ⟨hal, hcsub⟩ := fitTest_some hft
        obtain ⟨hal0, halv⟩ := aligner_some hal
        have halpos : 0 < al := aligner_pos halign hal
        obtain ⟨hled, hdval⟩ := csub_some hcsub
        have hfit2 : al + size ≤ e.size := by omega
        have hres : csub b.ptr size = some (e.ptr + al) := by
          rw [hbp]; simp [csub]
        simp only [hres, Option.some_bind] at hsucc
        have hW2len : es2.length = (writeBack s es2).len := by
          rw [writeBack_len, hlen2, hlen]
        have hWslots : (writeBack s es2).slots.length = s.slots.length :=
          writeBack_slots_length (by omega) hcap'
        have hWclean : CleanSpare (writeBack s es2) :=
          cleanSpare_writeBack (by omega) hcap' hclean
        have hWentries : entriesOf (writeBack s es2) = some es2 :=
          entriesOf_writeBack (by omega)
        -- disjointness of the allocated range from every mutated entry
        have hdisj2 : ∀ j e3, es2.get? j = some e3 →
            rdisj (e.ptr + al) size e3.ptr e3.size := by
          intro j e3 hj
          obtain ⟨e0, he0, hp0, hs0⟩ := hpt j e3 hj
          by_cases hjk : j = k
          · subst hjk
            rw [hget'] at hj
            have he3 : mutateEntry al e = e3 := Option.some.inj hj
            have halne : al ≠ 0 := by omega
            have hateq : e3.ptr = e.ptr ∧ e3.size = al := by
              rw [← he3]
              simp [mutateEntry, halne]
            unfold rdisj
            omega
          · have hdk : rdisj e.ptr e.size e0.ptr e0.size := by
              rcases Nat.lt_or_ge j k with hlt | hge
              · exact rdisj_symm (pairwise_get? hdisj hlt he0 hget)
              · exact pairwise_get? hdisj (by omega) hget he0
            exact rdisj_sub hdk (by omega) (by omega) (by omega) (by omega)
        have hdisjL : ∀ l ∈ L, rdisj (e.ptr + al) size l.ptr l.size := by
          intro l hl
          have hle := (hL l hl).2 e (List.get?_mem hget)
          exact rdisj_sub (rdisj_symm hle) (by omega) (by omega)
            (Nat.le_refl _) (Nat.le_refl _)
        have hmod : (e.ptr + al) % align = 0 := by
          rw [halv]; exact add_aligner_mod halign
        by_cases hbz : b.size = 0
        · simp only [if_pos hbz, pure, Option.some_bind] at hsucc
          cases hchk : checkF (writeBack s es2) with
          | none => simp [hchk] at hsucc
          | some u =>
            simp only [hchk, Option.some_bind, Option.some.injEq,
              Prod.mk.injEq] at hsucc
            obtain ⟨ha, hW⟩ := hsucc
            subst ha
            refine ⟨hmod, hdisjL, es2, by rw [← hW]; exact hWentries, ?_⟩
            intro e3 he3
            obtain ⟨j, hj⟩ := List.get?_of_mem he3
            exact hdisj2 j e3 hj
        · simp only [if_neg hbz] at hsucc
          cases hins : insertF f (writeBack s es2) n b.toEntry with
          | none => simp [hins] at hsucc
          | some s2 =>
            rw [hins] at hsucc
            simp only [Option.some_bind] at hsucc
            cases hchk : checkF s2 with
            | none => simp [hchk] at hsucc
            | some u =>
              simp only [hchk, Option.some_bind, pure, Option.some.injEq,
                Prod.mk.injEq] at hsucc
              obtain ⟨ha, hs2⟩ := hsucc
              subst ha
              subst hs2
              obtain ⟨hmem, -, -, -⟩ := insertF_mem
                (by rw [writeBack_len, hWslots]; exact hcap) hins
              obtain ⟨es3, hes3⟩ := checkF_entries hchk
              refine ⟨hmod, hdisjL, es3, hes3, ?_⟩
              intro e3 he3
              obtain ⟨j, hj⟩ := List.get?_of_mem he3
              have hrd : readS s2 j = some e3 := entriesOf_get hes3 hj
              rcases hmem j e3 hrd with hb | ⟨j', hj'⟩
              · subst hb
                unfold rdisj
                simp only [Block.toEntry]
                left
                omega
              · rcases Nat.lt_or_ge j' (writeBack s es2).len with hjl | hjl
                · rw [readS_writeBack_lt (by omega) (by
                    rw [writeBack_len] at hjl; exact hjl)] at hj'
                  exact hdisj2 j' e3 hj'
                · rw [hWclean j' hjl] at hj'
                  cases hj'
      | none =>
        obtain ⟨hes2eq, -⟩ := scanFit_nofit hscan
        subst hes2eq
        simp only [Option.some_bind] at hsucc
        rw [writeBack_self hes hcap'] at hsucc
        cases f with
        | zero => simp [alloc_newF] at hsucc
        | succ f2 =>
          have halne : align ≠ 0 := by omega
          simp only [alloc_newF, aligner, if_neg halne, inc_brk,
            Option.bind_eq_bind, Option.some_bind] at hsucc
          cases hp1 : pushF f2 { s with brk := s.brk +
              (canonicalize_brk size + (align - s.brk % align)) }
              (Block.toEntry ⟨s.brk, align - s.brk % align⟩) with
          | none => rw [hp1] at hsucc; cases hsucc
          | some s2 =>
            rw [hp1] at hsucc
            simp only [Option.some_bind] at hsucc
            cases hcs : csub (canonicalize_brk size) size with
            | none => rw [hcs] at hsucc; cases hsucc
            | some rem =>
              rw [hcs] at hsucc
              simp only [Option.some_bind] at hsucc
              obtain ⟨h2len, h2brk, h2slots, h2ent⟩ := pushF_entries
                (by simpa using hcap) hp1
              cases hp2 : pushF f2 s2 (Block.toEntry
                  ⟨Block.endAddr ⟨Block.endAddr ⟨s.brk, align - s.brk % align⟩,
                    size⟩, rem⟩) with
              | none => rw [hp2] at hsucc; cases hsucc
              | some s3 =>
                rw [hp2] at hsucc
                simp only [Option.some_bind] at hsucc
                obtain ⟨h3len, h3brk, h3slots, h3ent⟩ := pushF_entries
                  (by rw [h2len, h2slots]; simpa using hcap) hp2
                cases hchk : checkF s3 with
                | none => simp [hchk] at hsucc
                | some u =>
                  simp only [hchk, Option.some_bind, pure, Option.some.injEq,
                    Prod.mk.injEq] at hsucc
                  obtain ⟨ha, hs3⟩ := hsucc
                  subst hs3
                  have hent1 : entriesOf { s with brk := s.brk +
                      (canonicalize_brk size + (align - s.brk % align)) }
                      = some es2 := by
                    rw [← hes]
                    exact readSeq_congr (fun k _ => rfl)
                  have hents' : entriesOf s3 = some es2 := by
                    rw [h3ent, h2ent, hent1]
                  have haval : a = s.brk + (align - s.brk % align) := by
                    rw [← ha]
                    simp [Block.endAddr]
                  refine ⟨?_, ?_, es2, hents', ?_⟩
                  · rw [haval]
                    exact add_aligner_mod halign
                  · intro l hl
                    have := (hL l hl).1
                    unfold rdisj
                    omega
                  · intro e3 he3
                    have := hbrk e3 he3
                    unfold rdisj
                    omega

/-- **C1** witness: on the single free entry `[8, 20)` (break 100,
capacity 2) with one live allocation `[0, 8)`, `alloc(8, 4)` returns
12, which is 4-aligned and disjoint from the live allocation and from
the remaining recorded entry `[8, 12)`. -/
theorem alloc_valid_witness :
    12 % 4 = 0 ∧
    (∀ l ∈ [(⟨0, 8⟩ : Block)], rdisj 12 8 l.ptr l.size) ∧
    (∃ es', entriesOf (stateOf [⟨8, 4, true⟩] 2 100) = some es' ∧
      ∀ e ∈ es', rdisj 12 8 e.ptr e.size) :=
  alloc_valid 10 (stateOf [⟨8, 12, true⟩] 2 100) 8 4 12
    (stateOf [⟨8, 4, true⟩] 2 100) [⟨8, 12, true⟩] [⟨0, 8⟩]
    (by decide) (by decide) (by decide) (by decide)
    (by
      intro i hi
      rcases i with _ | _ | n
      · simp [stateOf] at hi
      · rfl
      · rfl)
    (by decide) (by decide) (by decide)

/-- **C2** (code bug).  Sortedness is *not* maintained by the
operations: on the sorted one-entry list `[16, 40)` an
`alloc(4, 8)` leaves behind the stub `[16, 24)` and hands the excess
block `[28, 40)` to `insert` at the *winner's* index, which places it
in front of the stub — the resulting array `[⟨28,12⟩, ⟨16,8⟩]` fails
`check`'s sortedness assertion and the call aborts.  Moreover no entry
is ever reachable from the empty list: `alloc`, `free` and `realloc`
all abort on it (`reserve`'s bootstrap `realloc` underflows
`self.len - 1`, `free` underflows the same expression), so the code
cannot even establish the invariant's domain. -/
theorem insert_breaks_sortedness :
    ((insertShift (stateOf [⟨16, 8, true⟩] 3 500) 0 1 ⟨28, 12, true⟩).bind entriesOf).map sortedB
        = some false
    ∧ allocF 10 (stateOf [⟨16, 24, true⟩] 3 500) 4 8 = none
    ∧ allocF 10 (stateOf [] 0 0) 1 1 = none
    ∧ freeF 10 (stateOf [] 0 0) ⟨5, 5⟩ = none
    ∧ reallocF 10 (stateOf [] 0 0) ⟨5, 5⟩ 10 1 = none :=
  ⟨by decide, by decide, by decide, by decide, by decide⟩

/-- **C3** (code bug).  A relocating `realloc` copies `block.size` — the
*old* size — bytes, not `min(old_size, new_size)`: shrinking the
10-byte block at address 10 to 5 bytes relocates it to address 101 and
copies 10 bytes into the 5-byte allocation. -/
theorem realloc_copies_old_size :
    (reallocF 10 (stateOf [⟨100, 6, true⟩] 3 1000) ⟨10, 10⟩ 5 1).map
        (fun r => (r.1, r.2.ghostCopies)) = some (101, [(10, 101, 10)])
    ∧ min 10 5 = 5 ∧ (10 : Nat) ≠ 5 :=
  ⟨by decide, by decide, by decide⟩

/-- **C5** (code bug).  `realloc_inplace` computes
`additional = old_size - size` with the operands the wrong way round,
so every genuine in-place *growth* (`new_size > old_size`) underflows
and aborts even when the claim's conditions hold (block not last, next
entry free, `old_size + next.size ≥ new_size`); and the code never
inspects `next.free`: a shrink "succeeds" in place with a non-free
next entry, moving that entry's address *up* by `old - new`. -/
theorem realloc_inplace_growth_underflow :
    reallocInplaceF (stateOf [⟨10, 5, true⟩, ⟨20, 4, true⟩] 3 500) 0 5 8 = none
    ∧ reallocInplaceF (stateOf [⟨10, 5, true⟩, ⟨20, 7, false⟩] 3 500) 0 5 3
        = some (some (stateOf [⟨10, 5, true⟩, ⟨22, 5, false⟩] 3 500)) :=
  ⟨by decide, by decide⟩

/-- **C6** (code bug).  Freeing `[15, 20)` next to the free entry
`[20, 25)` must, per the claim, absorb it into that entry (address
moving down to 15, size growing to 10).  The code's right-merge guard
`self[ind].left_to(&block)` tests adjacency in the wrong direction
(the *next* entry's end against the freed block's start), which can
never hold, so the block is inserted instead and two touching free
entries remain. -/
theorem free_no_right_merge :
    Block.endAddr ⟨15, 5⟩ = 20
    ∧ (freeF 10 (stateOf [⟨20, 5, true⟩, ⟨40, 5, true⟩] 4 500) ⟨15, 5⟩).bind entriesOf
        = some [⟨15, 5, true⟩, ⟨20, 5, true⟩, ⟨40, 5, true⟩] :=
  ⟨by decide, by decide⟩

/-- **C7** (code bug).  `insert(0, ⟨2,3⟩)` on
`[⟨10,0,¬free⟩, ⟨20,5,free⟩, ⟨30,5,free⟩, ⟨40,5,free⟩]` finds the
placeholder at offset 1, so per the claim only the single entry
between index 0 and the placeholder should shift right and the entries
past it stay untouched.  The code instead copies `len - n = 3`
entries, clobbering `⟨40,5⟩`, and bumps `len` over a never-written
slot; the subsequent consistency check reads that slot and the call
aborts. -/
theorem insert_gap_shift_bug :
    gapIdx [⟨10, 0, false⟩, ⟨20, 5, true⟩, ⟨30, 5, true⟩, ⟨40, 5, true⟩] = some 1
    ∧ (insertShift (stateOf [⟨10, 0, false⟩, ⟨20, 5, true⟩, ⟨30, 5, true⟩, ⟨40, 5, true⟩] 6 500)
          0 3 ⟨2, 3, true⟩).map (fun st => (st.slots, st.len))
        = some ([some ⟨2, 3, true⟩, some ⟨10, 0, false⟩, some ⟨20, 5, true⟩, some ⟨30, 5, true⟩,
                 none, none], 5)
    ∧ insertF 10 (stateOf [⟨10, 0, false⟩, ⟨20, 5, true⟩, ⟨30, 5, true⟩, ⟨40, 5, true⟩] 6 500)
          0 ⟨2, 3, true⟩ = none :=
  ⟨by decide, by decide, by decide⟩

/-- **C8** (code bug).  The padding helper returns
`align - ptr % align` unconditionally, so for an already aligned
address it yields `align`, not the claimed `0` (address 8, align 4
gives 4); for a misaligned address it matches the claim (address 9,
align 4 gives 3).  `alloc`'s own dead `if aligner == 0` branch shows a
zero result was intended. -/
theorem aligner_aligned_nonzero :
    aligner 8 4 = some 4 ∧ (8 : Nat) % 4 = 0 ∧ aligner 9 4 = some 3 :=
  ⟨by decide, by decide, by decide⟩

/-- **C9** (code bug).  The free/alloc round trip does not hold: on
`[⟨10,4,free⟩]` with break 100, `alloc(8, 4)` succeeds via heap growth
(returning 104), but freeing exactly that block aborts — the block
sorts after every entry, and `insert` at the end position slices
`self[ind + 1..]` out of bounds — so the second allocation is never
reached. -/
theorem roundtrip_free_aborts :
    (allocF 10 (stateOf [⟨10, 4, true⟩] 3 100) 8 4).map Prod.fst = some 104
    ∧ (allocF 10 (stateOf [⟨10, 4, true⟩] 3 100) 8 4).bind
        (fun r => freeF 10 r.2 ⟨r.1, 8⟩) = none :=
  ⟨by decide, by decide⟩

/-- **C4** (counterexample).  The scan of `alloc` never consults the
`free` flag: on `[⟨10,9,¬free⟩, ⟨30,9,free⟩]`, `alloc(8, 1)` is served
from the non-free entry at address 10 (returning 11), while the
claim's policy — smallest address among sufficiently large *free*
entries — designates the entry at 30 (address 31). -/
theorem alloc_scan_ignores_free_flag :
    (allocF 10 (stateOf [⟨10, 9, false⟩, ⟨30, 9, true⟩] 4 500) 8 1).map Prod.fst = some 11
    ∧ leftmostFreeFitAddr [⟨10, 9, false⟩, ⟨30, 9, true⟩] 1 8 = some 31
    ∧ (11 : Nat) ≠ 31 :=
  ⟨by decide, by decide, by decide⟩

/-- **C4** as amended.  When a sorted list contains at least one entry
that passes the fit test (after alignment padding), a successful
`alloc` is served from the passing entry with the *smallest address* —
free or not, since the scan never consults the `free` flag — and
returns that entry's address plus its padding. -/
theorem alloc_leftmost_fit (fuel : Nat) (s : BlockList) (size align a : Nat)
    (es : List BlockEntry)
    (hes : entriesOf s = some es)
    (hsort : sortedB es = true)
    (hfit : ∃ e ∈ es, FitsB align size e = true)
    (hsucc : (allocF fuel s size align).map Prod.fst = some a) :
    ∃ e ∈ es, FitsB align size e = true ∧
      (∀ e' ∈ es, FitsB align size e' = true → e.ptr ≤ e'.ptr) ∧
      a = e.ptr + (align - e.ptr % align) := by
  cases fuel with
  | zero => simp [allocF] at hsucc
  | succ f =>
    simp only [allocF, hes, Option.bind_eq_bind, Option.some_bind] at hsucc
    cases hscan : scanFit align size es 0 with
    | none => rw [hscan] at hsucc; cases hsucc
    | some r =>
      obtain ⟨es2, ins⟩ := r
      rw [hscan] at hsucc
      cases ins with
      | none =>
        obtain ⟨-, hall⟩ := scanFit_nofit hscan
        obtain ⟨e, he, hfe⟩ := hfit
        rw [hall e he] at hfe
        cases hfe
      | some nb =>
        obtain ⟨n, b⟩ := nb
        obtain ⟨k, e, al, d, hget, hn, hft, hsd, hbp, hbs, hget', hleft⟩ :=
          scanFit_winner hscan
        have hres : csub b.ptr size = some (e.ptr + al) := by
          rw [hbp]; simp [csub]
        simp only [hres, Option.some_bind] at hsucc
        have ha : a = e.ptr + al := by
          by_cases hbz : b.size = 0
          · simp only [if_pos hbz, pure, Option.some_bind] at hsucc
            cases hchk : checkF (writeBack s es2) with
            | none => simp [hchk] at hsucc
            | some u =>
              simp only [hchk, Option.some_bind] at hsucc
              simp at hsucc
              exact hsucc.symm
          · simp only [if_neg hbz] at hsucc
            cases hins : insertF f (writeBack s es2) n b.toEntry with
            | none => simp [hins] at hsucc
            | some s2 =>
              rw [hins] at hsucc
              cases hchk : checkF s2 with
              | none => simp [hchk] at hsucc
              | some u =>
                simp only [Option.some_bind, hchk] at hsucc
                simp at hsucc
                exact hsucc.symm
        obtain ⟨hal, -⟩ := fitTest_some hft
        obtain ⟨hal0, halv⟩ := aligner_some hal
        refine ⟨e, List.get?_mem hget, by simp [FitsB, hft, hsd], ?_, ?_⟩
        · intro e' he' hfe'
          obtain ⟨j, hj⟩ := List.get?_of_mem he'
          rcases Nat.lt_trichotomy j k with hjk | hjk | hjk
          · rw [hleft j e' hjk hj] at hfe'; cases hfe'
          · rw [hjk, hget] at hj
            cases hj
            exact Nat.le_refl _
          · exact Nat.le_of_lt (sortedB_get_lt hsort hjk hget hj)
        · rw [ha, halv]

/-- **C4** witness for the amended statement: on
`[⟨7,9,free⟩, ⟨40,9,free⟩]` both entries fit `alloc(8, 1)` and the
call returns `7 + 1 = 8`, served from the smaller address 7. -/
theorem alloc_leftmost_fit_witness :
    ∃ e ∈ [(⟨7, 9, true⟩ : BlockEntry), ⟨40, 9, true⟩], FitsB 1 8 e = true ∧
      (∀ e' ∈ [(⟨7, 9, true⟩ : BlockEntry), ⟨40, 9, true⟩],
        FitsB 1 8 e' = true → e.ptr ≤ e'.ptr) ∧
      8 = e.ptr + (1 - e.ptr % 1) :=
  alloc_leftmost_fit 10 (stateOf [⟨7, 9, true⟩, ⟨40, 9, true⟩] 4 500) 8 1 8
    [⟨7, 9, true⟩, ⟨40, 9, true⟩] (by decide) (by decide)
    ⟨⟨7, 9, true⟩, by decide, by decide⟩ (by decide)

end Ralloc
